import Mathlib

/-!
Verification of the `super-env` encryption core (`src/core/encryption.ts`),
gitignore bookkeeping (`src/core/gitignore.ts`) and schema-validation glue
(`src/core/env.ts`) against the natural-language specification.

Modelling conventions:
* JS strings are `List Char`; byte buffers are `List (Fin 256)`.
* Plaintext is modelled by its UTF-8 byte sequence (`cipher.update(text,
  "utf8", ...)` operates on exactly those bytes, and UTF-8 encoding is
  injective, so string statements and byte statements coincide).
* The node:crypto primitives (`scryptSync` with keylen 32 and the AES-256
  block permutation underlying `"aes-256-cbc"`) live outside this
  repository; they are modelled abstractly as a `CryptoPrims` structure
  carrying exactly the properties the node API documents (fixed output
  lengths and the two-sided block-level inversion).  CBC chaining, PKCS#7
  padding, base64 framing and every line of the repository's own code are
  modelled concretely.
* `randomBytes n` is modelled by universal quantification over byte lists
  of length `n`.
-/

namespace SuperEnv

/-! ## Bytes and XOR -/

/-- Byte-wise XOR on `Fin 256` (the operation CBC chaining performs). -/
def bxor (a b : Fin 256) : Fin 256 :=
  ⟨a.val ^^^ b.val, Nat.xor_lt_two_pow (n := 8) a.isLt b.isLt⟩

/-- Pointwise XOR of two byte lists (truncating to the shorter one,
exactly as CBC applies it to equal-length blocks). -/
def zipXor (a b : List (Fin 256)) : List (Fin 256) :=
  List.zipWith bxor a b

theorem bxor_bxor_cancel (a b : Fin 256) : bxor (bxor a b) b = a := by
  apply Fin.ext
  simp [bxor, Nat.xor_assoc]

theorem zipXor_length (a b : List (Fin 256)) :
    (zipXor a b).length = min a.length b.length := by
  simp [zipXor]

theorem zipXor_zipXor_cancel :
    ∀ a b : List (Fin 256), a.length = b.length → zipXor (zipXor a b) b = a
  | [], [], _ => rfl
  | x :: xs, y :: ys, h => by
    have h' : xs.length = ys.length := by simpa using h
    have ih := zipXor_zipXor_cancel xs ys h'
    simp only [zipXor, List.zipWith_cons_cons] at ih ⊢
    rw [bxor_bxor_cancel, ih]

/-! ## Base64 (node `Buffer` base64: standard alphabet, `=` padding,
lenient decoding that skips characters outside the alphabet and keeps only
complete output bytes). -/

def b64Alphabet : List Char :=
  "ABCDEFGHIJKLMNOPQRSTUVWXYZabcdefghijklmnopqrstuvwxyz0123456789+/".toList

/-- The 6-bit groups of a byte sequence, most-significant bits first. -/
def b64Sextets : List (Fin 256) → List Nat
  | [] => []
  | [a] => [a.val / 4, a.val % 4 * 16]
  | [a, b] => [a.val / 4, a.val % 4 * 16 + b.val / 16, b.val % 16 * 4]
  | a :: b :: c :: rest =>
    a.val / 4 :: (a.val % 4 * 16 + b.val / 16) :: (b.val % 16 * 4 + c.val / 64)
      :: c.val % 64 :: b64Sextets rest

/-- Number of `=` padding characters base64 appends for `n` input bytes. -/
def b64PadCount (n : Nat) : Nat := (3 - n % 3) % 3

def sextetChar (v : Nat) : Char := b64Alphabet.getD v 'A'

/-- Base64 encoding as produced by `buf.toString("base64")` /
`cipher.update(..., "base64")`. -/
def b64Encode (bs : List (Fin 256)) : List Char :=
  (b64Sextets bs).map sextetChar ++ List.replicate (b64PadCount bs.length) '='

def isB64Char (c : Char) : Bool := c ∈ b64Alphabet

def b64CharIdx (c : Char) : Nat := b64Alphabet.indexOf c

/-- Reassemble bytes from 6-bit groups, dropping incomplete trailing bits
(node keeps only complete output bytes). -/
def b64Quads : List Nat → List (Fin 256)
  | a :: b :: c :: d :: rest =>
    ⟨(a * 4 + b / 16) % 256, Nat.mod_lt _ (by norm_num)⟩
      :: ⟨(b % 16 * 16 + c / 4) % 256, Nat.mod_lt _ (by norm_num)⟩
      :: ⟨(c % 4 * 64 + d) % 256, Nat.mod_lt _ (by norm_num)⟩
      :: b64Quads rest
  | [a, b] => [⟨(a * 4 + b / 16) % 256, Nat.mod_lt _ (by norm_num)⟩]
  | [a, b, c] =>
    [⟨(a * 4 + b / 16) % 256, Nat.mod_lt _ (by norm_num)⟩,
      ⟨(b % 16 * 16 + c / 4) % 256, Nat.mod_lt _ (by norm_num)⟩]
  | _ => []

/-- Lenient base64 decoding as performed by `Buffer.from(s, "base64")`:
characters outside the alphabet (including `=`) are skipped, and only
complete bytes are produced. -/
def b64DecodeLenient (s : List Char) : List (Fin 256) :=
  b64Quads ((s.filter isB64Char).map b64CharIdx)

theorem b64Sextets_lt : ∀ bs, ∀ x ∈ b64Sextets bs, x < 64
  | [] => by simp [b64Sextets]
  | [a] => by
    have := a.isLt
    simp only [b64Sextets, List.mem_cons, List.mem_singleton]
    rintro x (rfl | rfl | h) <;> first | omega | simp at h
  | [a, b] => by
    have ha := a.isLt; have hb := b.isLt
    simp only [b64Sextets, List.mem_cons, List.mem_singleton]
    rintro x (rfl | rfl | rfl | h) <;> first | omega | simp at h
  | a :: b :: c :: rest => by
    have ha := a.isLt; have hb := b.isLt; have hc := c.isLt
    simp only [b64Sextets, List.mem_cons]
    rintro x (rfl | rfl | rfl | rfl | h)
    · omega
    · omega
    · omega
    · omega
    · exact b64Sextets_lt rest x h

theorem sextetChar_mem : ∀ v : Fin 64, sextetChar v.val ∈ b64Alphabet := by
  decide

theorem isB64Char_sextetChar : ∀ v : Fin 64, isB64Char (sextetChar v.val) = true := by
  decide

theorem b64CharIdx_sextetChar : ∀ v : Fin 64, b64CharIdx (sextetChar v.val) = v.val := by
  decide

theorem isB64Char_eq_false : isB64Char '=' = false := by decide

theorem b64Quads_b64Sextets : ∀ bs, b64Quads (b64Sextets bs) = bs
  | [] => rfl
  | [a] => by
    have := a.isLt
    simp only [b64Sextets, b64Quads, List.cons.injEq, and_true]
    apply Fin.ext; simp; omega
  | [a, b] => by
    have := a.isLt; have := b.isLt
    simp only [b64Sextets, b64Quads, List.cons.injEq, and_true]
    refine ⟨?_, ?_⟩ <;> (apply Fin.ext; simp; omega)
  | a :: b :: c :: rest => by
    have := a.isLt; have := b.isLt; have := c.isLt
    simp only [b64Sextets, b64Quads, List.cons.injEq]
    refine ⟨?_, ?_, ?_, b64Quads_b64Sextets rest⟩
    · apply Fin.ext; simp; omega
    · apply Fin.ext; simp; omega
    · apply Fin.ext; simp; omega

/-- Round-trip: node's lenient base64 decode inverts base64 encode. -/
theorem b64DecodeLenient_b64Encode (bs : List (Fin 256)) :
    b64DecodeLenient (b64Encode bs) = bs := by
  unfold b64DecodeLenient b64Encode
  have hfilter :
      ((b64Sextets bs).map sextetChar ++
        List.replicate (b64PadCount bs.length) '=').filter isB64Char
        = (b64Sextets bs).map sextetChar := by
    rw [List.filter_append]
    have h1 : ((b64Sextets bs).map sextetChar).filter isB64Char
        = (b64Sextets bs).map sextetChar := by
      apply List.filter_eq_self.mpr
      intro c hc
      rcases List.mem_map.mp hc with ⟨v, hv, rfl⟩
      exact isB64Char_sextetChar ⟨v, b64Sextets_lt bs v hv⟩
    have h2 : (List.replicate (b64PadCount bs.length) '=').filter isB64Char = [] := by
      apply List.filter_eq_nil_iff.mpr
      intro c hc
      rw [List.eq_of_mem_replicate hc]
      simp [isB64Char_eq_false]
    rw [h1, h2, List.append_nil]
  rw [hfilter, List.map_map]
  have hmap : (b64Sextets bs).map (b64CharIdx ∘ sextetChar) = b64Sextets bs := by
    nth_rewrite 2 [← List.map_id (b64Sextets bs)]
    apply List.map_congr_left
    intro v hv
    exact b64CharIdx_sextetChar ⟨v, b64Sextets_lt bs v hv⟩
  rw [hmap, b64Quads_b64Sextets]

theorem b64Encode_no_colon (bs : List (Fin 256)) : ':' ∉ b64Encode bs := by
  intro hmem
  unfold b64Encode at hmem
  rcases List.mem_append.mp hmem with h | h
  · rcases List.mem_map.mp h with ⟨v, hv, hc⟩
    have : sextetChar v ∈ b64Alphabet :=
      sextetChar_mem ⟨v, b64Sextets_lt bs v hv⟩
    rw [hc] at this
    revert this; decide
  · have := List.eq_of_mem_replicate h
    simp at this

theorem b64Encode_ne_nil (bs : List (Fin 256)) (h : bs ≠ []) :
    b64Encode bs ≠ [] := by
  match bs with
  | [] => exact absurd rfl h
  | [a] => simp [b64Encode, b64Sextets]
  | [a, b] => simp [b64Encode, b64Sextets]
  | a :: b :: c :: rest => simp [b64Encode, b64Sextets]

/-! ## JS `String.prototype.split` with a single-character separator -/

/-- `s.split(sep)` for a one-character separator, as JS defines it:
`"" ↦ [""]`, `":" ↦ ["", ""]`, `"a:b:c" ↦ ["a","b","c"]`. -/
def splitOnChar (sep : Char) : List Char → List (List Char)
  | [] => [[]]
  | c :: rest =>
    if c = sep then [] :: splitOnChar sep rest
    else
      match splitOnChar sep rest with
      | [] => [[c]]
      | p :: ps => (c :: p) :: ps

theorem splitOnChar_ne_nil (sep : Char) : ∀ s, splitOnChar sep s ≠ []
  | [] => by simp [splitOnChar]
  | c :: rest => by
    simp only [splitOnChar]
    split
    · simp
    · split <;> simp

theorem splitOnChar_not_mem (sep : Char) :
    ∀ s : List Char, sep ∉ s → splitOnChar sep s = [s]
  | [], _ => rfl
  | c :: rest, h => by
    have hc : c ≠ sep := fun hc => h (hc ▸ List.mem_cons_self c rest)
    have hrest : sep ∉ rest := fun hr => h (List.mem_cons_of_mem c hr)
    simp only [splitOnChar, if_neg hc, splitOnChar_not_mem sep rest hrest]

theorem splitOnChar_append (sep : Char) :
    ∀ s₁ s₂ : List Char, sep ∉ s₁ →
      splitOnChar sep (s₁ ++ sep :: s₂) = s₁ :: splitOnChar sep s₂
  | [], s₂, _ => by simp [splitOnChar]
  | c :: rest, s₂, h => by
    have hc : c ≠ sep := fun hc => h (hc ▸ List.mem_cons_self c rest)
    have hrest : sep ∉ rest := fun hr => h (List.mem_cons_of_mem c hr)
    have ih := splitOnChar_append sep rest s₂ hrest
    show splitOnChar sep (c :: (rest ++ sep :: s₂)) = (c :: rest) :: splitOnChar sep s₂
    rw [splitOnChar, if_neg hc, ih]

/-! ## PKCS#7 padding (as applied by OpenSSL inside `"aes-256-cbc"`) -/

/-- Number of padding bytes appended for an `n`-byte plaintext: always in
`[1, 16]`. -/
def padLen (n : Nat) : Nat := 16 - n % 16

def padByte (n : Nat) : Fin 256 :=
  ⟨padLen n, Nat.lt_of_le_of_lt (Nat.sub_le _ _) (by norm_num)⟩

/-- PKCS#7 pad to a multiple of the 16-byte block size. -/
def pad7 (s : List (Fin 256)) : List (Fin 256) :=
  s ++ List.replicate (padLen s.length) (padByte s.length)

/-- PKCS#7 unpad with the full check OpenSSL performs on
`EVP_DecryptFinal`: the last byte `k` must lie in `[1,16]` and the final
`k` bytes must all equal `k`; otherwise the operation fails. -/
def unpad7 (bs : List (Fin 256)) : Option (List (Fin 256)) :=
  match bs.getLast? with
  | none => none
  | some last =>
    if 1 ≤ last.val ∧ last.val ≤ 16 ∧ last.val ≤ bs.length ∧
        bs.drop (bs.length - last.val) = List.replicate last.val last
    then some (bs.take (bs.length - last.val))
    else none

theorem padLen_pos (n : Nat) : 1 ≤ padLen n := by
  unfold padLen; omega

theorem padLen_le (n : Nat) : padLen n ≤ 16 := by
  unfold padLen; omega

theorem pad7_length (s : List (Fin 256)) :
    (pad7 s).length = s.length + padLen s.length := by
  simp [pad7]

theorem pad7_length_dvd (s : List (Fin 256)) : 16 ∣ (pad7 s).length := by
  rw [pad7_length]
  unfold padLen
  omega

theorem unpad7_pad7 (s : List (Fin 256)) : unpad7 (pad7 s) = some s := by
  have hpos := padLen_pos s.length
  have hle := padLen_le s.length
  have hrep : (List.replicate (padLen s.length) (padByte s.length)).getLast?
      = some (padByte s.length) := by
    obtain ⟨k, hk⟩ : ∃ k, padLen s.length = k + 1 := ⟨padLen s.length - 1, by omega⟩
    rw [hk, List.replicate_succ', List.getLast?_concat]
  have hlast : (pad7 s).getLast? = some (padByte s.length) := by
    unfold pad7
    rw [List.getLast?_append, hrep]
    rfl
  have hlen := pad7_length s
  have hval : (padByte s.length).val = padLen s.length := rfl
  have hstep : unpad7 (pad7 s) =
      if 1 ≤ (padByte s.length).val ∧ (padByte s.length).val ≤ 16 ∧
          (padByte s.length).val ≤ (pad7 s).length ∧
          (pad7 s).drop ((pad7 s).length - (padByte s.length).val)
            = List.replicate (padByte s.length).val (padByte s.length)
      then some ((pad7 s).take ((pad7 s).length - (padByte s.length).val))
      else none := by
    unfold unpad7
    rw [hlast]
  rw [hstep]
  have hsub : (pad7 s).length - (padByte s.length).val = s.length := by
    rw [hlen, hval]; omega
  rw [if_pos]
  · rw [hsub]
    unfold pad7
    rw [List.take_left]
  · refine ⟨by omega, by omega, by omega, ?_⟩
    rw [hsub]
    unfold pad7
    rw [List.drop_left, hval]

/-! ## The node:crypto primitives (external to this repository) -/

/-- Abstract model of the primitives `encryption.ts` imports from
`node:crypto`: the AES-256 block permutation underlying `"aes-256-cbc"`
and `scryptSync(·, "salt", 32)`.  The fields state exactly the properties
the node/OpenSSL API documents: AES maps 16-byte blocks to 16-byte blocks
and decryption inverts encryption blockwise; scrypt with `keylen = 32`
always returns 32 bytes. -/
structure CryptoPrims where
  encBlock : List (Fin 256) → List (Fin 256) → List (Fin 256)
  decBlock : List (Fin 256) → List (Fin 256) → List (Fin 256)
  scrypt : List (Fin 256) → List (Fin 256)
  encBlock_length : ∀ k b, b.length = 16 → (encBlock k b).length = 16
  decBlock_length : ∀ k b, b.length = 16 → (decBlock k b).length = 16
  decBlock_encBlock : ∀ k b, b.length = 16 → decBlock k (encBlock k b) = b
  scrypt_length : ∀ mk, (scrypt mk).length = 32

/-- CBC-mode encryption over already-padded input: each block is XORed
with the previous ciphertext block (initially the IV) and passed through
the block cipher.  The recursion is driven by an explicit fuel argument
(one unit per byte suffices) so the definition is structurally recursive
and kernel-computable; `cbcEnc` below supplies `bs.length` fuel. -/
def cbcEncAux (C : CryptoPrims) (key : List (Fin 256)) :
    Nat → List (Fin 256) → List (Fin 256) → List (Fin 256)
  | _, _, [] => []
  | 0, _, _ => []
  | fuel + 1, prev, b :: bs =>
    let c := C.encBlock key (zipXor ((b :: bs).take 16) prev)
    c ++ cbcEncAux C key fuel c ((b :: bs).drop 16)

/-- CBC-mode decryption (before the padding check), fuelled like
`cbcEncAux`. -/
def cbcDecAux (C : CryptoPrims) (key : List (Fin 256)) :
    Nat → List (Fin 256) → List (Fin 256) → List (Fin 256)
  | _, _, [] => []
  | 0, _, _ => []
  | fuel + 1, prev, b :: bs =>
    zipXor (C.decBlock key ((b :: bs).take 16)) prev ++
      cbcDecAux C key fuel ((b :: bs).take 16) ((b :: bs).drop 16)

def cbcEnc (C : CryptoPrims) (key prev bs : List (Fin 256)) : List (Fin 256) :=
  cbcEncAux C key bs.length prev bs

def cbcDec (C : CryptoPrims) (key prev bs : List (Fin 256)) : List (Fin 256) :=
  cbcDecAux C key bs.length prev bs

theorem cbcEncAux_step (C : CryptoPrims) (key : List (Fin 256)) (f : Nat)
    (prev bs : List (Fin 256)) (h : bs ≠ []) :
    cbcEncAux C key (f + 1) prev bs
      = C.encBlock key (zipXor (bs.take 16) prev) ++
        cbcEncAux C key f (C.encBlock key (zipXor (bs.take 16) prev))
          (bs.drop 16) := by
  cases bs with
  | nil => exact absurd rfl h
  | cons b bs' => simp only [cbcEncAux]

theorem cbcDecAux_step (C : CryptoPrims) (key : List (Fin 256)) (f : Nat)
    (prev bs : List (Fin 256)) (h : bs ≠ []) :
    cbcDecAux C key (f + 1) prev bs
      = zipXor (C.decBlock key (bs.take 16)) prev ++
        cbcDecAux C key f (bs.take 16) (bs.drop 16) := by
  cases bs with
  | nil => exact absurd rfl h
  | cons b bs' => simp only [cbcDecAux]

theorem cbcEncAux_nil (C : CryptoPrims) (key : List (Fin 256)) (f : Nat)
    (prev : List (Fin 256)) : cbcEncAux C key f prev [] = [] := by
  cases f <;> simp [cbcEncAux]

theorem cbcDecAux_nil (C : CryptoPrims) (key : List (Fin 256)) (f : Nat)
    (prev : List (Fin 256)) : cbcDecAux C key f prev [] = [] := by
  cases f <;> simp [cbcDecAux]

theorem cbcEncAux_length (C : CryptoPrims) (key : List (Fin 256)) :
    ∀ n fuel, ∀ prev bs : List (Fin 256), bs.length = 16 * n →
      prev.length = 16 → bs.length ≤ fuel →
      (cbcEncAux C key fuel prev bs).length = bs.length := by
  intro n
  induction n with
  | zero =>
    intro fuel prev bs hbs _ _
    have : bs = [] := List.eq_nil_of_length_eq_zero (by omega)
    subst this
    rw [cbcEncAux_nil]
  | succ m ih =>
    intro fuel prev bs hbs hprev hfuel
    have hne : bs ≠ [] := by
      intro h; subst h; simp at hbs
    cases fuel with
    | zero =>
      exfalso
      have : bs.length = 0 := by omega
      exact hne (List.eq_nil_of_length_eq_zero this)
    | succ f =>
      rw [cbcEncAux_step C key f prev bs hne]
      have htake : (bs.take 16).length = 16 := by
        simp [List.length_take]; omega
      have hxlen : (zipXor (bs.take 16) prev).length = 16 := by
        rw [zipXor_length, htake, hprev]; simp
      have hclen := C.encBlock_length key _ hxlen
      have hdrop : (bs.drop 16).length = 16 * m := by
        simp [List.length_drop]; omega
      have hfuel' : (bs.drop 16).length ≤ f := by
        rw [hdrop]; omega
      rw [List.length_append, hclen, ih f _ _ hdrop hclen hfuel', hdrop]
      omega

theorem cbcDecAux_cbcEncAux (C : CryptoPrims) (key : List (Fin 256)) :
    ∀ n fuel1 fuel2, ∀ prev bs : List (Fin 256), bs.length = 16 * n →
      prev.length = 16 → bs.length ≤ fuel1 → bs.length ≤ fuel2 →
      cbcDecAux C key fuel2 prev (cbcEncAux C key fuel1 prev bs) = bs := by
  intro n
  induction n with
  | zero =>
    intro fuel1 fuel2 prev bs hbs _ _ _
    have : bs = [] := List.eq_nil_of_length_eq_zero (by omega)
    subst this
    rw [cbcEncAux_nil, cbcDecAux_nil]
  | succ m ih =>
    intro fuel1 fuel2 prev bs hbs hprev hfuel1 hfuel2
    have hne : bs ≠ [] := by
      intro h; subst h; simp at hbs
    have hpos : 0 < bs.length := List.length_pos.mpr hne
    cases fuel1 with
    | zero => exfalso; omega
    | succ f1 =>
      cases fuel2 with
      | zero => exfalso; omega
      | succ f2 =>
        rw [cbcEncAux_step C key f1 prev bs hne]
        have htake : (bs.take 16).length = 16 := by
          simp [List.length_take]; omega
        have hxlen : (zipXor (bs.take 16) prev).length = 16 := by
          rw [zipXor_length, htake, hprev]; simp
        have hclen := C.encBlock_length key _ hxlen
        have hdrop : (bs.drop 16).length = 16 * m := by
          simp [List.length_drop]; omega
        have hfuel1' : (bs.drop 16).length ≤ f1 := by rw [hdrop]; omega
        have hfuel2' : (bs.drop 16).length ≤ f2 := by rw [hdrop]; omega
        set c := C.encBlock key (zipXor (bs.take 16) prev) with hc
        have happne : c ++ cbcEncAux C key f1 c (bs.drop 16) ≠ [] := by
          intro h
          apply_fun List.length at h
          rw [List.length_append, hclen] at h
          simp at h
        rw [cbcDecAux_step C key f2 prev _ happne]
        have htakec : (c ++ cbcEncAux C key f1 c (bs.drop 16)).take 16 = c := by
          rw [← hclen, List.take_left]
        have hdropc : (c ++ cbcEncAux C key f1 c (bs.drop 16)).drop 16 =
            cbcEncAux C key f1 c (bs.drop 16) := by
          rw [← hclen, List.drop_left]
        rw [htakec, hdropc]
        rw [C.decBlock_encBlock key _ hxlen]
        rw [zipXor_zipXor_cancel _ _ (by rw [htake, hprev])]
        rw [ih f1 f2 _ _ hdrop hclen hfuel1' hfuel2']
        exact List.take_append_drop 16 bs

theorem cbcEnc_length (C : CryptoPrims) (key : List (Fin 256)) :
    ∀ n, ∀ prev bs : List (Fin 256), bs.length = 16 * n → prev.length = 16 →
      (cbcEnc C key prev bs).length = bs.length := fun n prev bs h1 h2 =>
  cbcEncAux_length C key n bs.length prev bs h1 h2 (Nat.le_refl _)

theorem cbcDec_cbcEnc (C : CryptoPrims) (key : List (Fin 256)) :
    ∀ n, ∀ prev bs : List (Fin 256), bs.length = 16 * n → prev.length = 16 →
      cbcDec C key prev (cbcEnc C key prev bs) = bs := by
  intro n prev bs h1 h2
  unfold cbcEnc cbcDec
  rw [cbcEncAux_length C key n bs.length prev bs h1 h2 (Nat.le_refl _)]
  exact cbcDecAux_cbcEncAux C key n bs.length bs.length prev bs h1 h2
    (Nat.le_refl _) (Nat.le_refl _)

/-! ## The encryption core (`src/core/encryption.ts`) -/

/-- The distinct failure points of `decrypt` (the spec names the explicit
`"Invalid encrypted text format"` throw `MalformedRecordError` and the
cipher-level throws `DecryptionError`; `createDecipheriv` additionally
rejects mis-sized keys and IVs before any cipher operation runs). -/
inductive DecryptError where
  | malformedRecord
  | invalidKeyLength
  | invalidIV
  | cipherFailure
deriving DecidableEq, Repr

/-- `encrypt(text, masterKey)` from `encryption.ts` lines 57-72, at the
level of UTF-8 bytes.  The fresh IV drawn by `randomBytes(16)` is an
explicit parameter (a 16-byte list); the derived key is
`scryptSync(masterKey, "salt", 32)`; the record is
`iv.toString("base64") + ":" + <base64 ciphertext>`. -/
def encryptBytes (C : CryptoPrims) (text masterKey iv : List (Fin 256)) :
    List Char :=
  let key := C.scrypt masterKey
  b64Encode iv ++ ':' :: b64Encode (cbcEnc C key iv (pad7 text))

/-- `decrypt(encryptedText, masterKey)` from `encryption.ts` lines 80-99,
at the level of UTF-8 bytes.  Mirrors the source exactly: JS
`split(":")`, the falsy check on the first two parts, lenient base64
decoding, `scryptSync`, `createDecipheriv` (which rejects keys ≠ 32 bytes
and IVs ≠ 16 bytes), then CBC decryption with the PKCS#7 padding check
(any failure there is the collapsed `DecryptionError`). -/
def decryptBytes (C : CryptoPrims) (record : List Char)
    (masterKey : List (Fin 256)) : Except DecryptError (List (Fin 256)) :=
  let parts := splitOnChar ':' record
  let ivB64 := parts.headD []
  let encB64 := (parts.drop 1).headD []
  if ivB64 = [] ∨ encB64 = [] then .error .malformedRecord
  else
    let iv := b64DecodeLenient ivB64
    let key := C.scrypt masterKey
    if key.length ≠ 32 then .error .invalidKeyLength
    else if iv.length ≠ 16 then .error .invalidIV
    else
      let ct := b64DecodeLenient encB64
      if ct = [] ∨ ct.length % 16 ≠ 0 then .error .cipherFailure
      else
        match unpad7 (cbcDec C key iv ct) with
        | none => .error .cipherFailure
        | some pt => .ok pt

/-- Shared round-trip fact: decrypting an encryption of `text` under the
same master key recovers `text`, for every 16-byte IV and every block
cipher/KDF satisfying the node:crypto contract. -/
theorem decryptBytes_encryptBytes (C : CryptoPrims)
    (text masterKey iv : List (Fin 256)) (hiv : iv.length = 16) :
    decryptBytes C (encryptBytes C text masterKey iv) masterKey
      = .ok text := by
  have hkey : (C.scrypt masterKey).length = 32 := C.scrypt_length masterKey
  obtain ⟨n, hn⟩ := pad7_length_dvd text
  have hct : (cbcEnc C (C.scrypt masterKey) iv (pad7 text)).length
      = (pad7 text).length :=
    cbcEnc_length C _ n iv (pad7 text) hn hiv
  have hpadpos : 0 < (pad7 text).length := by
    rw [pad7_length]
    have := padLen_pos text.length
    omega
  have hivne : iv ≠ [] := by
    intro h; rw [h] at hiv; simp at hiv
  have hctne : cbcEnc C (C.scrypt masterKey) iv (pad7 text) ≠ [] := by
    intro h
    rw [h] at hct
    simp at hct
    omega
  have hrec : encryptBytes C text masterKey iv
      = b64Encode iv ++ ':'
        :: b64Encode (cbcEnc C (C.scrypt masterKey) iv (pad7 text)) := rfl
  have hsplit : splitOnChar ':' (b64Encode iv ++ ':'
        :: b64Encode (cbcEnc C (C.scrypt masterKey) iv (pad7 text)))
      = [b64Encode iv,
          b64Encode (cbcEnc C (C.scrypt masterKey) iv (pad7 text))] := by
    rw [splitOnChar_append ':' _ _ (b64Encode_no_colon iv),
      splitOnChar_not_mem ':' _ (b64Encode_no_colon _)]
  rw [hrec]
  simp only [decryptBytes, hsplit, List.headD_cons, List.drop_succ_cons,
    List.drop_zero]
  rw [if_neg, if_neg, if_neg, if_neg]
  · rw [b64DecodeLenient_b64Encode iv, b64DecodeLenient_b64Encode]
    rw [cbcDec_cbcEnc C _ n iv (pad7 text) hn hiv]
    rw [unpad7_pad7]
  · rw [b64DecodeLenient_b64Encode]
    push_neg
    refine ⟨hctne, ?_⟩
    rw [hct, hn]
    omega
  · rw [b64DecodeLenient_b64Encode iv, hiv]
    simp
  · rw [hkey]
    simp
  · push_neg
    exact ⟨b64Encode_ne_nil iv hivne, b64Encode_ne_nil _ hctne⟩

/-! ## The key manager (`src/core/encryption.ts` lines 22-49) -/

/-- A file system snapshot: path (a JS string) to raw byte content, or
`none` when no file exists at that path. -/
def FileSystem : Type := List Char → Option (List (Fin 256))

inductive KeyError where
  | keyNotFound
deriving DecidableEq, Repr

/-- `generateMasterKey()`: `randomBytes(32)`.  The secure random source is
an explicit parameter. -/
def generateMasterKey (randomBytes : Nat → List (Fin 256)) : List (Fin 256) :=
  randomBytes 32

/-- `saveMasterKey(key, filePath)`: `writeFileSync(filePath, key)`,
overwriting any existing file. -/
def saveMasterKey (key : List (Fin 256)) (filePath : List Char)
    (fs : FileSystem) : FileSystem :=
  fun p => if p = filePath then some key else fs p

/-- `loadMasterKey(filePath)`: throws when `existsSync` is false,
otherwise returns the raw file bytes unvalidated. -/
def loadMasterKey (filePath : List Char) (fs : FileSystem) :
    Except KeyError (List (Fin 256)) :=
  match fs filePath with
  | none => .error .keyNotFound
  | some bs => .ok bs

/-- A concrete member of the `CryptoPrims` interface (identity block
permutation, constant-output KDF), used to instantiate the general
theorems at concrete inputs. -/
def idPrims : CryptoPrims where
  encBlock := fun _ b => b
  decBlock := fun _ b => b
  scrypt := fun _ => List.replicate 32 0
  encBlock_length := fun _ _ h => h
  decBlock_length := fun _ _ h => h
  decBlock_encBlock := fun _ _ _ => rfl
  scrypt_length := fun _ => by simp

/-- C1: for every UTF-8 string `s` (given by its byte sequence), every
master key `k` and every 16-byte IV the encryption draws,
`decrypt(encrypt(s, k), k)` returns `s`. -/
theorem decrypt_encrypt_roundtrip (C : CryptoPrims)
    (s k iv : List (Fin 256)) (hiv : iv.length = 16) :
    decryptBytes C (encryptBytes C s k iv) k = .ok s :=
  decryptBytes_encryptBytes C s k iv hiv

/-- Witness for C1 at a concrete plaintext, key and IV. -/
theorem decrypt_encrypt_roundtrip_witness :
    (List.replicate 16 (0 : Fin 256)).length = 16 ∧
    decryptBytes idPrims
        (encryptBytes idPrims [72, 101, 108, 108, 111]
          (List.replicate 32 0) (List.replicate 16 0))
        (List.replicate 32 0)
      = .ok [72, 101, 108, 108, 111] :=
  ⟨by simp, decrypt_encrypt_roundtrip idPrims [72, 101, 108, 108, 111]
    (List.replicate 32 0) (List.replicate 16 0) (by simp)⟩

/-- C5: for every plaintext, key and 16-byte IV, the record produced by
`encrypt` contains the colon exactly once; it is
`base64(iv) ++ ":" ++ base64(ciphertext)` and neither base64 part
contains a colon. -/
theorem encrypt_record_shape (C : CryptoPrims)
    (s k iv : List (Fin 256)) (hiv : iv.length = 16) :
    (encryptBytes C s k iv).count ':' = 1 ∧
    encryptBytes C s k iv
      = b64Encode iv ++ ':' :: b64Encode (cbcEnc C (C.scrypt k) iv (pad7 s)) ∧
    ':' ∉ b64Encode iv ∧
    ':' ∉ b64Encode (cbcEnc C (C.scrypt k) iv (pad7 s)) := by
  refine ⟨?_, rfl, b64Encode_no_colon iv, b64Encode_no_colon _⟩
  have hA : (b64Encode iv).count ':' = 0 :=
    List.count_eq_zero_of_not_mem (b64Encode_no_colon iv)
  have hB : (b64Encode (cbcEnc C (C.scrypt k) iv (pad7 s))).count ':' = 0 :=
    List.count_eq_zero_of_not_mem (b64Encode_no_colon _)
  show (b64Encode iv ++ ':'
      :: b64Encode (cbcEnc C (C.scrypt k) iv (pad7 s))).count ':' = 1
  rw [List.count_append, hA, List.count_cons_self, hB]

/-- Witness for C5 at a concrete plaintext, key and IV. -/
theorem encrypt_record_shape_witness :
    (List.replicate 16 (0 : Fin 256)).length = 16 ∧
    (encryptBytes idPrims [1, 2, 3] (List.replicate 32 0)
      (List.replicate 16 0)).count ':' = 1 :=
  ⟨by simp, (encrypt_record_shape idPrims [1, 2, 3] (List.replicate 32 0)
    (List.replicate 16 0) (by simp)).1⟩

/-- C6: two encryptions of the same plaintext under the same key that
draw distinct 16-byte IVs produce distinct records, and both records
decrypt back to the plaintext. -/
theorem encrypt_nondeterminism (C : CryptoPrims)
    (s k iv₁ iv₂ : List (Fin 256)) (h1 : iv₁.length = 16)
    (h2 : iv₂.length = 16) (hne : iv₁ ≠ iv₂) :
    encryptBytes C s k iv₁ ≠ encryptBytes C s k iv₂ ∧
    decryptBytes C (encryptBytes C s k iv₁) k = .ok s ∧
    decryptBytes C (encryptBytes C s k iv₂) k = .ok s := by
  refine ⟨?_, decryptBytes_encryptBytes C s k iv₁ h1,
    decryptBytes_encryptBytes C s k iv₂ h2⟩
  intro heq
  apply hne
  have heq' : b64Encode iv₁ ++ ':'
        :: b64Encode (cbcEnc C (C.scrypt k) iv₁ (pad7 s))
      = b64Encode iv₂ ++ ':'
        :: b64Encode (cbcEnc C (C.scrypt k) iv₂ (pad7 s)) := heq
  have hs := congrArg (splitOnChar ':') heq'
  rw [splitOnChar_append ':' _ _ (b64Encode_no_colon iv₁),
    splitOnChar_append ':' _ _ (b64Encode_no_colon iv₂)] at hs
  have hhead : b64Encode iv₁ = b64Encode iv₂ := by
    injection hs
  have := congrArg b64DecodeLenient hhead
  rwa [b64DecodeLenient_b64Encode, b64DecodeLenient_b64Encode] at this

/-- Witness for C6 at two concrete distinct IVs. -/
theorem encrypt_nondeterminism_witness :
    (List.replicate 16 (0 : Fin 256)).length = 16 ∧
    (List.replicate 16 (1 : Fin 256)).length = 16 ∧
    List.replicate 16 (0 : Fin 256) ≠ List.replicate 16 (1 : Fin 256) ∧
    encryptBytes idPrims [5] (List.replicate 32 0) (List.replicate 16 0)
      ≠ encryptBytes idPrims [5] (List.replicate 32 0)
        (List.replicate 16 1) :=
  ⟨by simp, by simp, by decide,
    (encrypt_nondeterminism idPrims [5] (List.replicate 32 0)
      (List.replicate 16 0) (List.replicate 16 1)
      (by simp) (by simp) (by decide)).1⟩

/-- C7: `generateKey()` always returns exactly 32 bytes (whenever the
secure random source honours its length contract), and `saveKey` followed
by `loadKey` at the same path returns byte-identical content. -/
theorem generate_save_load_key (randomBytes : Nat → List (Fin 256))
    (hrb : ∀ n, (randomBytes n).length = n) :
    (generateMasterKey randomBytes).length = 32 ∧
    ∀ (key : List (Fin 256)) (path : List Char) (fs : FileSystem),
      loadMasterKey path (saveMasterKey key path fs) = .ok key := by
  refine ⟨hrb 32, ?_⟩
  intro key path fs
  simp [loadMasterKey, saveMasterKey]

/-- Witness for C7 with a concrete random source, key, path and file
system. -/
theorem generate_save_load_key_witness :
    (generateMasterKey (fun n => List.replicate n 0)).length = 32 ∧
    loadMasterKey ['p'] (saveMasterKey [9, 9] ['p'] (fun _ => none))
      = .ok [9, 9] := by
  have h := generate_save_load_key (fun n => List.replicate n 0)
    (fun n => by simp)
  exact ⟨h.1, h.2 [9, 9] ['p'] (fun _ => none)⟩

/-- C8: `loadKey(path)` fails with `KeyNotFoundError` exactly when no
file exists at `path`; when a file exists its bytes are returned
unvalidated, whatever their length (the quantifier over `bs` ranges over
byte lists of every length). -/
theorem load_key_unvalidated (path : List Char) (fs : FileSystem) :
    (loadMasterKey path fs = .error .keyNotFound ↔ fs path = none) ∧
    ∀ bs, fs path = some bs → loadMasterKey path fs = .ok bs := by
  constructor
  · unfold loadMasterKey
    cases h : fs path <;> simp
  · intro bs h
    simp [loadMasterKey, h]

/-- Witness for C8: a 3-byte (wrong-length) key file is returned as-is,
and a missing file yields `KeyNotFoundError`. -/
theorem load_key_unvalidated_witness :
    loadMasterKey ['k'] (fun _ => some [1, 2, 3]) = .ok [1, 2, 3] ∧
    loadMasterKey ['k'] (fun _ => none) = .error .keyNotFound :=
  ⟨(load_key_unvalidated ['k'] (fun _ => some [1, 2, 3])).2 [1, 2, 3] rfl,
    (load_key_unvalidated ['k'] (fun _ => none)).1.mpr rfl⟩

/-! ## Characterizing JS `split(":")` for the malformed-record analysis -/

theorem takeWhile_eq_self_of_not_mem (sep : Char) :
    ∀ s : List Char, sep ∉ s → s.takeWhile (· ≠ sep) = s
  | [], _ => rfl
  | c :: rest, h => by
    have hc : c ≠ sep := fun hc => h (hc ▸ List.mem_cons_self c rest)
    have hrest : sep ∉ rest := fun hr => h (List.mem_cons_of_mem c hr)
    simp only [List.takeWhile_cons, decide_eq_true_eq]
    rw [if_pos hc, takeWhile_eq_self_of_not_mem sep rest hrest]

theorem splitOnChar_eq_cases (sep : Char) :
    ∀ r : List Char, splitOnChar sep r =
      if sep ∈ r then
        r.takeWhile (· ≠ sep)
          :: splitOnChar sep ((r.dropWhile (· ≠ sep)).tail)
      else [r]
  | [] => by simp [splitOnChar]
  | c :: rest => by
    by_cases hc : c = sep
    · rw [hc]
      rw [if_pos (List.mem_cons_self sep rest)]
      have htw : (sep :: rest).takeWhile (· ≠ sep) = [] := by simp
      have hdw : ((sep :: rest).dropWhile (· ≠ sep)).tail = rest := by simp
      rw [htw, hdw]
      simp [splitOnChar]
    · have htw : (c :: rest).takeWhile (· ≠ sep)
          = c :: rest.takeWhile (· ≠ sep) := by
        simp [List.takeWhile_cons, hc]
      have hdw : (c :: rest).dropWhile (· ≠ sep)
          = rest.dropWhile (· ≠ sep) := by
        simp [List.dropWhile_cons, hc]
      have hrec := splitOnChar_eq_cases sep rest
      by_cases hsr : sep ∈ rest
      · have hmem : sep ∈ c :: rest := List.mem_cons_of_mem c hsr
        rw [if_pos hmem, htw, hdw]
        simp only [splitOnChar]
        rw [if_neg hc, hrec, if_pos hsr]
      · have hmem : sep ∉ c :: rest := by
          intro h'
          rcases List.mem_cons.mp h' with h'' | h''
          · exact hc h''.symm
          · exact hsr h''
        rw [if_neg hmem]
        simp only [splitOnChar]
        rw [if_neg hc, hrec, if_neg hsr]

theorem splitOnChar_headD (sep : Char) (r : List Char) :
    (splitOnChar sep r).headD [] = r.takeWhile (· ≠ sep) := by
  rw [splitOnChar_eq_cases]
  by_cases h : sep ∈ r
  · rw [if_pos h]; rfl
  · rw [if_neg h]
    exact (takeWhile_eq_self_of_not_mem sep r h).symm

theorem splitOnChar_secondD_of_mem (sep : Char) (r : List Char)
    (h : sep ∈ r) :
    ((splitOnChar sep r).drop 1).headD []
      = ((r.dropWhile (· ≠ sep)).tail).takeWhile (· ≠ sep) := by
  rw [splitOnChar_eq_cases, if_pos h]
  simp only [List.drop_succ_cons, List.drop_zero]
  exact splitOnChar_headD sep _

theorem splitOnChar_secondD_of_not_mem (sep : Char) (r : List Char)
    (h : sep ∉ r) :
    ((splitOnChar sep r).drop 1).headD [] = [] := by
  rw [splitOnChar_eq_cases, if_neg h]
  rfl

/-! ## Claim C2: the malformed-record condition -/

/-- The split the claim describes: on the FIRST colon only (so at most
two parts, and the second part may itself contain colons). -/
def splitFirstColon (r : List Char) : List (List Char) :=
  if ':' ∈ r then [r.takeWhile (· ≠ ':'), (r.dropWhile (· ≠ ':')).tail]
  else [r]

/-- Strict base64 well-formedness (what "fails base64 decoding" means for
a validating decoder): length a multiple of 4, and a run of alphabet
characters followed only by at most two `=` padding characters. -/
def b64StrictOk (s : List Char) : Bool :=
  decide (s.length % 4 = 0) &&
    (s.drop (s.takeWhile isB64Char).length).all (· = '=') &&
    decide ((s.drop (s.takeWhile isB64Char).length).length ≤ 2)

/-- The error condition claimed for `MalformedRecordError`: fewer than two
parts after splitting on the first colon, or either part fails base64
decoding. -/
def specMalformedCond (r : List Char) : Bool :=
  match splitFirstColon r with
  | [p, q] => !(b64StrictOk p) || !(b64StrictOk q)
  | _ => true

/-- C2 counterexample: for `r = "QUJD:???"` the claim's condition holds
(the part after the first colon is not valid base64), yet `decrypt` does
not raise `MalformedRecordError`: both split parts are non-empty, so the
format check passes, base64 is decoded leniently, and the call fails only
inside `createDecipheriv` because the decoded IV has 3 bytes instead of
16. -/
theorem decrypt_malformed_counterexample :
    specMalformedCond "QUJD:???".toList = true ∧
    decryptBytes idPrims "QUJD:???".toList (List.replicate 32 0)
      = .error .invalidIV ∧
    decryptBytes idPrims "QUJD:???".toList (List.replicate 32 0)
      ≠ .error .malformedRecord := by
  refine ⟨by decide, by rfl, ?_⟩
  intro h
  rw [show decryptBytes idPrims "QUJD:???".toList (List.replicate 32 0)
      = .error .invalidIV from rfl] at h
  exact absurd (Except.error.inj h) (by decide)

/-- C2 (amended): `decrypt` raises `MalformedRecordError` exactly when
the first two components of the JS split of `r` on `":"` are missing or
empty — i.e. `r` contains no colon, or the segment before the first colon
is empty, or the segment between the first colon and the next colon (or
the end of `r`) is empty.  Base64 contents are never validated (node
decodes leniently), so base64 failure never yields
`MalformedRecordError`.  In particular
`decrypt("not-a-valid-record", k)` raises `MalformedRecordError` for
every key and every cipher backend. -/
theorem decrypt_malformed_characterization (C : CryptoPrims)
    (mk : List (Fin 256)) (r : List Char) :
    (decryptBytes C r mk = .error .malformedRecord ↔
      (':' ∉ r ∨ r.takeWhile (· ≠ ':') = [] ∨
        ((r.dropWhile (· ≠ ':')).tail).takeWhile (· ≠ ':') = [])) ∧
    decryptBytes C "not-a-valid-record".toList mk
      = .error .malformedRecord := by
  constructor
  · by_cases hcond : (splitOnChar ':' r).headD [] = [] ∨
        ((splitOnChar ':' r).drop 1).headD [] = []
    · apply iff_of_true
      · simp only [decryptBytes]
        rw [if_pos hcond]
      · rcases hcond with h1 | h2
        · rw [splitOnChar_headD] at h1
          exact Or.inr (Or.inl h1)
        · by_cases hm : ':' ∈ r
          · rw [splitOnChar_secondD_of_mem ':' r hm] at h2
            exact Or.inr (Or.inr h2)
          · exact Or.inl hm
    · apply iff_of_false
      · simp only [decryptBytes]
        rw [if_neg hcond]
        split_ifs <;> try simp
        split <;> simp
      · rintro (hnc | htw | hsecond)
        · exact hcond (Or.inr (splitOnChar_secondD_of_not_mem ':' r hnc))
        · exact hcond (Or.inl ((splitOnChar_headD ':' r).trans htw))
        · by_cases hm : ':' ∈ r
          · exact hcond (Or.inr
              ((splitOnChar_secondD_of_mem ':' r hm).trans hsecond))
          · exact hcond (Or.inr (splitOnChar_secondD_of_not_mem ':' r hm))
  · have hnc : ':' ∉ "not-a-valid-record".toList := by decide
    have hs := splitOnChar_secondD_of_not_mem ':' _ hnc
    simp only [decryptBytes]
    rw [if_pos (Or.inr hs)]

/-- Witness for the amended C2 at a concrete record, key and cipher. -/
theorem decrypt_malformed_characterization_witness :
    decryptBytes idPrims "not-a-valid-record".toList (List.replicate 32 0)
      = .error .malformedRecord :=
  (decrypt_malformed_characterization idPrims (List.replicate 32 0)
    "not-a-valid-record".toList).2

/-! ## Claim C3: tampering with the ciphertext -/

/-- XOR byte `i` of `bs` with `d` (a "byte flip" at position `i`);
positions past the end leave the list unchanged. -/
def flipAt (bs : List (Fin 256)) (i : Nat) (d : Fin 256) : List (Fin 256) :=
  bs.take i ++ (match bs.drop i with
    | [] => []
    | x :: rest => bxor x d :: rest)

/-- The record `encrypt(s, k)` would produce with IV `iv`, with byte `i`
of its ciphertext portion XORed by `d`. -/
def tamperCiphertext (C : CryptoPrims) (s k iv : List (Fin 256)) (i : Nat)
    (d : Fin 256) : List Char :=
  b64Encode iv ++ ':'
    :: b64Encode (flipAt (cbcEnc C (C.scrypt k) iv (pad7 s)) i d)

theorem bxor_assoc (x y z : Fin 256) :
    bxor (bxor x y) z = bxor x (bxor y z) := by
  apply Fin.ext
  simp [bxor, Nat.xor_assoc]

theorem flipAt_zero_cons (y : Fin 256) (ys : List (Fin 256)) (d : Fin 256) :
    flipAt (y :: ys) 0 d = bxor y d :: ys := rfl

theorem flipAt_succ_cons (y : Fin 256) (ys : List (Fin 256)) (i : Nat)
    (d : Fin 256) : flipAt (y :: ys) (i + 1) d = y :: flipAt ys i d := rfl

theorem flipAt_length (bs : List (Fin 256)) (i : Nat) (d : Fin 256) :
    (flipAt bs i d).length = bs.length := by
  unfold flipAt
  rcases hdrop : bs.drop i with _ | ⟨x, rest⟩
  · have hle : bs.length ≤ i := by
      have := congrArg List.length hdrop
      simp [List.length_drop] at this
      omega
    simp [List.length_take]
    omega
  · have := congrArg List.length hdrop
    simp [List.length_drop] at this
    simp [List.length_take]
    omega

theorem flipAt_append_left (i : Nat) (a b : List (Fin 256)) (d : Fin 256)
    (hi : i < a.length) :
    flipAt (a ++ b) i d = flipAt a i d ++ b := by
  unfold flipAt
  rw [List.take_append_of_le_length (le_of_lt hi),
    List.drop_append_of_le_length (le_of_lt hi)]
  rcases hdrop : a.drop i with _ | ⟨x, rest⟩
  · exfalso
    have := congrArg List.length hdrop
    simp [List.length_drop] at this
    omega
  · simp [List.append_assoc]

theorem zipXor_flipAt :
    ∀ (i : Nat) (a b : List (Fin 256)) (d : Fin 256), a.length = b.length →
      zipXor a (flipAt b i d) = flipAt (zipXor a b) i d
  | i, [], [], d, _ => by simp [zipXor, flipAt]
  | _, [], _ :: _, _, h => by simp at h
  | _, _ :: _, [], _, h => by simp at h
  | 0, x :: xs, y :: ys, d, _ => by
    rw [flipAt_zero_cons]
    show bxor x (bxor y d) :: zipXor xs ys
      = flipAt (bxor x y :: zipXor xs ys) 0 d
    rw [flipAt_zero_cons, ← bxor_assoc]
  | i + 1, x :: xs, y :: ys, d, h => by
    rw [flipAt_succ_cons]
    show bxor x y :: zipXor xs (flipAt ys i d)
      = flipAt (bxor x y :: zipXor xs ys) (i + 1) d
    rw [flipAt_succ_cons, zipXor_flipAt i xs ys d (by simpa using h)]

theorem flipAt_ne (bs : List (Fin 256)) (i : Nat) (d : Fin 256)
    (hi : i < bs.length) (hd : d ≠ 0) : flipAt bs i d ≠ bs := by
  intro h
  unfold flipAt at h
  rcases hdrop : bs.drop i with _ | ⟨x, rest⟩
  · have := congrArg List.length hdrop
    simp [List.length_drop] at this
    omega
  · rw [hdrop] at h
    conv_rhs at h => rw [← List.take_append_drop i bs, hdrop]
    have h2 := List.append_cancel_left h
    injection h2 with hx _
    apply hd
    apply Fin.ext
    have hv := congrArg Fin.val hx
    simp only [bxor] at hv
    have h3 : x.val ^^^ (x.val ^^^ d.val) = x.val ^^^ x.val := by rw [hv]
    rw [← Nat.xor_assoc, Nat.xor_self, Nat.zero_xor] at h3
    simpa using h3

theorem replicate_getLast (k : Nat) (x : Fin 256) (hk : 1 ≤ k) :
    (List.replicate k x).getLast? = some x := by
  obtain ⟨m, rfl⟩ : ∃ m, k = m + 1 := ⟨k - 1, by omega⟩
  rw [List.replicate_succ', List.getLast?_concat]

theorem pad7_getLast (s : List (Fin 256)) :
    (pad7 s).getLast? = some (padByte s.length) := by
  unfold pad7
  rw [List.getLast?_append, replicate_getLast _ _ (padLen_pos s.length)]
  rfl

/-- `unpad7` succeeds whenever the final byte announces a pad length in
`[1,16]` and that many trailing bytes carry it. -/
theorem unpad7_eq_of (bs : List (Fin 256)) (kb : Fin 256)
    (hk1 : 1 ≤ kb.val) (hk16 : kb.val ≤ 16) (hklen : kb.val ≤ bs.length)
    (hlast : bs.getLast? = some kb)
    (hdrop : bs.drop (bs.length - kb.val) = List.replicate kb.val kb) :
    unpad7 bs = some (bs.take (bs.length - kb.val)) := by
  have hstep : unpad7 bs =
      if 1 ≤ kb.val ∧ kb.val ≤ 16 ∧ kb.val ≤ bs.length ∧
          bs.drop (bs.length - kb.val) = List.replicate kb.val kb
      then some (bs.take (bs.length - kb.val)) else none := by
    unfold unpad7
    rw [hlast]
  rw [hstep, if_pos ⟨hk1, hk16, hklen, hdrop⟩]

/-- C3 (amended): flipping a byte of the first ciphertext block of a
record whose ciphertext spans at least three blocks (plaintext of 32 or
more bytes) makes `decrypt` SUCCEED and return a plaintext different from
the original — no `DecryptionError` is raised.  In CBC, a flip in block
`j` garbles only plaintext blocks `j` and `j+1`; the final block, which
carries the PKCS#7 padding, is untouched, so the padding check passes for
every block cipher. -/
theorem decrypt_tamper_first_block (C : CryptoPrims)
    (s k iv : List (Fin 256)) (hs : 32 ≤ s.length) (hiv : iv.length = 16)
    (i : Nat) (hi : i < 16) (d : Fin 256) (hd : d ≠ 0) :
    ∃ out, decryptBytes C (tamperCiphertext C s k iv i d) k = .ok out ∧
      out ≠ s := by
  have hkey : (C.scrypt k).length = 32 := C.scrypt_length k
  obtain ⟨n, hn⟩ := pad7_length_dvd s
  have hplen := pad7_length s
  have hk1 := padLen_pos s.length
  have hk16 := padLen_le s.length
  have hn3 : 3 ≤ n := by omega
  have hpne : pad7 s ≠ [] := by
    intro h
    rw [h] at hplen
    simp at hplen
    omega
  have hp16 : ((pad7 s).take 16).length = 16 := by
    simp [List.length_take]
    omega
  have hx1 : (zipXor ((pad7 s).take 16) iv).length = 16 := by
    rw [zipXor_length, hp16, hiv]
    simp
  have hc1len :
      (C.encBlock (C.scrypt k) (zipXor ((pad7 s).take 16) iv)).length = 16 :=
    C.encBlock_length _ _ hx1
  obtain ⟨f, hf⟩ : ∃ f, (pad7 s).length = f + 1 :=
    ⟨(pad7 s).length - 1, by omega⟩
  have hct : cbcEnc C (C.scrypt k) iv (pad7 s)
      = C.encBlock (C.scrypt k) (zipXor ((pad7 s).take 16) iv)
        ++ cbcEncAux C (C.scrypt k) f
          (C.encBlock (C.scrypt k) (zipXor ((pad7 s).take 16) iv))
          ((pad7 s).drop 16) := by
    unfold cbcEnc
    rw [hf]
    exact cbcEncAux_step C _ f iv (pad7 s) hpne
  set key := C.scrypt k with hkeydef
  set c1 := C.encBlock key (zipXor ((pad7 s).take 16) iv) with hc1def
  set E := cbcEncAux C key f c1 ((pad7 s).drop 16) with hEdef
  have hdrop16 : ((pad7 s).drop 16).length = 16 * (n - 1) := by
    simp [List.length_drop]
    omega
  have hffuel : ((pad7 s).drop 16).length ≤ f := by
    rw [hdrop16]
    omega
  have hElen : E.length = 16 * (n - 1) := by
    rw [hEdef,
      cbcEncAux_length C key (n - 1) f c1 ((pad7 s).drop 16) hdrop16
        hc1len hffuel]
    exact hdrop16
  have hc1'len : (flipAt c1 i d).length = 16 := by
    rw [flipAt_length, hc1len]
  have hctflip : flipAt (cbcEnc C key iv (pad7 s)) i d
      = flipAt c1 i d ++ E := by
    rw [hct, flipAt_append_left i c1 E d (by omega)]
  have hrec : tamperCiphertext C s k iv i d
      = b64Encode iv ++ ':' :: b64Encode (flipAt c1 i d ++ E) := by
    unfold tamperCiphertext
    rw [← hkeydef, hctflip]
  have hctlen2 : (flipAt c1 i d ++ E).length = 16 * n := by
    rw [List.length_append, hc1'len, hElen]
    omega
  have hctne2 : flipAt c1 i d ++ E ≠ [] := by
    intro h
    have := congrArg List.length h
    rw [hctlen2] at this
    simp at this
    omega
  have hivne : iv ≠ [] := by
    intro h
    rw [h] at hiv
    simp at hiv
  have hsplit : splitOnChar ':'
        (b64Encode iv ++ ':' :: b64Encode (flipAt c1 i d ++ E))
      = [b64Encode iv, b64Encode (flipAt c1 i d ++ E)] := by
    rw [splitOnChar_append ':' _ _ (b64Encode_no_colon iv),
      splitOnChar_not_mem ':' _ (b64Encode_no_colon _)]
  have hdec : decryptBytes C (tamperCiphertext C s k iv i d) k
      = match unpad7 (cbcDec C key iv (flipAt c1 i d ++ E)) with
        | none => Except.error DecryptError.cipherFailure
        | some pt => Except.ok pt := by
    rw [hrec]
    simp only [decryptBytes, hsplit, List.headD_cons, List.drop_succ_cons,
      List.drop_zero]
    rw [if_neg, if_neg, if_neg, if_neg]
    · rw [b64DecodeLenient_b64Encode, b64DecodeLenient_b64Encode]
    · rw [b64DecodeLenient_b64Encode]
      push_neg
      refine ⟨hctne2, ?_⟩
      rw [hctlen2]
      omega
    · rw [b64DecodeLenient_b64Encode, hiv]
      simp
    · rw [← hkeydef, hkey]
      simp
    · push_neg
      exact ⟨b64Encode_ne_nil iv hivne, b64Encode_ne_nil _ hctne2⟩
  obtain ⟨g, hg⟩ : ∃ g, (flipAt c1 i d ++ E).length = g + 1 :=
    ⟨(flipAt c1 i d ++ E).length - 1, by omega⟩
  have hdcbc : cbcDec C key iv (flipAt c1 i d ++ E)
      = zipXor (C.decBlock key ((flipAt c1 i d ++ E).take 16)) iv
        ++ cbcDecAux C key g ((flipAt c1 i d ++ E).take 16)
          ((flipAt c1 i d ++ E).drop 16) := by
    unfold cbcDec
    rw [hg]
    exact cbcDecAux_step C key g iv _ hctne2
  have htakec : (flipAt c1 i d ++ E).take 16 = flipAt c1 i d := by
    rw [← hc1'len, List.take_left]
  have hdropc : (flipAt c1 i d ++ E).drop 16 = E := by
    rw [← hc1'len, List.drop_left]
  rw [htakec, hdropc] at hdcbc
  have hEne : E ≠ [] := by
    intro h
    have := congrArg List.length h
    rw [hElen] at this
    simp at this
    omega
  obtain ⟨g2, hg2⟩ : ∃ g2, g = g2 + 1 := ⟨g - 1, by omega⟩
  set Z := C.decBlock key (E.take 16) with hZdef
  set T := cbcDecAux C key g2 (E.take 16) (E.drop 16) with hTdef
  set P2v := zipXor Z c1 with hP2def
  have hDstep : cbcDecAux C key g (flipAt c1 i d) E
      = zipXor Z (flipAt c1 i d) ++ T := by
    rw [hg2, hZdef, hTdef]
    exact cbcDecAux_step C key g2 _ E hEne
  have hOstep : cbcDecAux C key g c1 E = P2v ++ T := by
    rw [hg2, hP2def, hZdef, hTdef]
    exact cbcDecAux_step C key g2 _ E hEne
  have hOrig : cbcDecAux C key g c1 E = (pad7 s).drop 16 := by
    rw [hEdef]
    exact cbcDecAux_cbcEncAux C key (n - 1) f g c1 ((pad7 s).drop 16)
      hdrop16 hc1len hffuel (by rw [hdrop16]; omega)
  have hEtake : (E.take 16).length = 16 := by
    simp [List.length_take]
    omega
  have hZlen : Z.length = 16 := C.decBlock_length _ _ hEtake
  have hP2len : P2v.length = 16 := by
    rw [hP2def, zipXor_length, hZlen, hc1len]
    simp
  have hheads : zipXor Z (flipAt c1 i d) = flipAt P2v i d := by
    rw [hP2def]
    exact zipXor_flipAt i Z c1 d (by rw [hZlen, hc1len])
  have hsplit2 : P2v ++ T = (pad7 s).drop 16 := by
    rw [← hOstep]
    exact hOrig
  have hp2a : ((pad7 s).drop 16).take 16 = P2v := by
    rw [← hsplit2, ← hP2len, List.take_left]
  have hp2b : ((pad7 s).drop 16).drop 16 = T := by
    rw [← hsplit2, ← hP2len, List.drop_left]
  have hT32 : (pad7 s).drop 32 = T := by
    rw [List.drop_drop] at hp2b
    norm_num at hp2b
    exact hp2b
  set X := zipXor (C.decBlock key (flipAt c1 i d)) iv with hXdef
  rw [hDstep, hheads] at hdcbc
  have hXlen : X.length = 16 := by
    rw [hXdef, zipXor_length, C.decBlock_length _ _ hc1'len, hiv]
    simp
  have hflen2 : (flipAt P2v i d).length = 16 := by
    rw [flipAt_length, hP2len]
  have hTlen : T.length = 16 * n - 32 := by
    have := congrArg List.length hT32
    simp [List.length_drop] at this
    omega
  set u := X ++ (flipAt P2v i d ++ T) with hudef
  have hulen : u.length = 16 * n := by
    rw [hudef, List.length_append, List.length_append, hXlen, hflen2, hTlen]
    omega
  have hXf32 : (X ++ flipAt P2v i d).length = 32 := by
    rw [List.length_append, hXlen, hflen2]
  have huassoc : u = (X ++ flipAt P2v i d) ++ T := by
    rw [hudef, List.append_assoc]
  have hudrop32 : u.drop 32 = T := by
    rw [huassoc, ← hXf32, List.drop_left]
  set kb := padByte s.length with hkbdef
  have hkbval : kb.val = padLen s.length := rfl
  have hslen : s.length = 16 * n - padLen s.length := by omega
  have hTne : T ≠ [] := by
    intro h
    have := congrArg List.length h
    rw [hTlen] at this
    simp at this
    omega
  have hpdrop32 : (pad7 s).drop 32
      = s.drop 32 ++ List.replicate (padLen s.length) kb := by
    unfold pad7
    rw [List.drop_append_of_le_length (by omega)]
  have hlast_u : u.getLast? = some kb := by
    rw [huassoc, List.getLast?_append]
    have hTlast : T.getLast? = some kb := by
      rw [← hT32, hpdrop32, List.getLast?_append,
        replicate_getLast _ _ hk1]
      rfl
    rw [hTlast]
    rfl
  have hdrop_u : u.drop (u.length - kb.val) = List.replicate kb.val kb := by
    have h1 : u.drop (u.length - kb.val)
        = (u.drop 32).drop (u.length - kb.val - 32) := by
      rw [List.drop_drop]
      congr 1
      omega
    rw [h1, hudrop32, ← hT32, List.drop_drop]
    have h2 : 32 + (u.length - kb.val - 32) = s.length := by
      rw [hulen, hkbval]
      omega
    rw [h2]
    unfold pad7
    rw [List.drop_left, hkbval]
  have hunpad : unpad7 u = some (u.take (u.length - kb.val)) :=
    unpad7_eq_of u kb (by rw [hkbval]; exact hk1)
      (by rw [hkbval]; exact hk16) (by rw [hkbval, hulen]; omega)
      hlast_u hdrop_u
  refine ⟨u.take (u.length - kb.val), ?_, ?_⟩
  · rw [hdec, hdcbc, hunpad]
  · intro hcontra
    have hut : u.take (u.length - kb.val)
        = X ++ (flipAt P2v i d ++ T.take (u.length - kb.val - 32)) := by
      rw [hudef, List.take_append_eq_append_take,
        List.take_of_length_le (by rw [hXlen, hulen, hkbval]; omega),
        hXlen, List.take_append_eq_append_take,
        List.take_of_length_le (by rw [hflen2, hulen, hkbval]; omega),
        hflen2]
      have harith : (X ++ (flipAt P2v i d ++ T)).length - kb.val - 16 - 16
          = (X ++ (flipAt P2v i d ++ T)).length - kb.val - 32 := by omega
      rw [harith]
    rw [hut] at hcontra
    have hsdecomp : s
        = s.take 16 ++ ((s.drop 16).take 16 ++ (s.drop 16).drop 16) := by
      rw [List.take_append_drop, List.take_append_drop]
    have hcc := hcontra.trans hsdecomp
    have hs2 : (s.drop 16).take 16 = P2v := by
      have h1 : (pad7 s).drop 16
          = s.drop 16 ++ List.replicate (padLen s.length) kb := by
        unfold pad7
        rw [List.drop_append_of_le_length (by omega)]
      have h2 : ((pad7 s).drop 16).take 16 = (s.drop 16).take 16 := by
        rw [h1, List.take_append_of_le_length
          (by simp [List.length_drop]; omega)]
      rw [← h2, hp2a]
    have hstake16 : (s.take 16).length = 16 := by
      simp [List.length_take]
      omega
    obtain ⟨_, hrest⟩ :=
      List.append_inj hcc (by rw [hXlen, hstake16])
    have hflen16 : (flipAt P2v i d).length = ((s.drop 16).take 16).length := by
      rw [hflen2, hs2, hP2len]
    obtain ⟨hflip_eq, _⟩ := List.append_inj hrest hflen16
    rw [hs2] at hflip_eq
    exact flipAt_ne P2v i d (by rw [hP2len]; exact hi) hd hflip_eq

/-- C3 counterexample to the claim as stated: for the 33-byte plaintext
`65^33`, the zero key and zero IV, flipping byte 0 of the ciphertext
portion does NOT make `decrypt` raise `DecryptionError`; it returns a
plaintext that differs from the original at bytes 0 and 16. -/
theorem decrypt_tamper_counterexample :
    decryptBytes idPrims
        (tamperCiphertext idPrims (List.replicate 33 65)
          (List.replicate 32 0) (List.replicate 16 0) 0 1)
        (List.replicate 32 0)
      = .ok (flipAt (flipAt (List.replicate 33 65) 0 1) 16 1) ∧
    flipAt (flipAt (List.replicate 33 65) 0 1) 16 1
      ≠ List.replicate 33 65 :=
  ⟨by rfl, by decide⟩

/-- Witness for the amended C3 at a concrete plaintext, key, IV, byte
position and flip mask. -/
theorem decrypt_tamper_first_block_witness :
    32 ≤ (List.replicate 33 (65 : Fin 256)).length ∧
    (List.replicate 16 (0 : Fin 256)).length = 16 ∧
    (0 : Nat) < 16 ∧ (1 : Fin 256) ≠ 0 ∧
    ∃ out, decryptBytes idPrims
        (tamperCiphertext idPrims (List.replicate 33 65)
          (List.replicate 32 0) (List.replicate 16 0) 0 1)
        (List.replicate 32 0) = .ok out ∧
      out ≠ List.replicate 33 65 :=
  ⟨by simp, by simp, by norm_num, by decide,
    decrypt_tamper_first_block idPrims (List.replicate 33 65)
      (List.replicate 32 0) (List.replicate 16 0) (by simp) (by simp)
      0 (by norm_num) 1 (by decide)⟩

/-! ## `src/core/gitignore.ts` -/

/-- JS `content.split(/\r?\n/)`: split on every `\n`, consuming an
immediately preceding `\r` with it. -/
def splitLines : List Char → List (List Char)
  | [] => [[]]
  | [c] => if c = '\n' then [[], []] else [[c]]
  | c :: c2 :: rest =>
    if c = '\n' then [] :: splitLines (c2 :: rest)
    else if c = '\r' ∧ c2 = '\n' then [] :: splitLines rest
    else
      match splitLines (c2 :: rest) with
      | [] => [[c]]
      | p :: ps => (c :: p) :: ps

/-- One iteration of the entry loop in `addToGitignore`: skip entries
already present, append new ones and mark the content modified. -/
def addEntryStep (acc : List (List Char) × Bool) (e : List Char) :
    List (List Char) × Bool :=
  if e ∈ acc.1 then acc else (acc.1 ++ [e], true)

/-- `addToGitignore(entries, gitignorePath)` from `gitignore.ts` lines
14-45: read the file (empty string when absent), split into lines, append
each entry not already present as a line, and write back
`lines.join(EOL)` only when something was added.  Returns the `modified`
flag and the resulting file state; `eol` models `os.EOL`. -/
def addToGitignore (entries : List (List Char)) (eol : List Char)
    (file : Option (List Char)) : Bool × Option (List Char) :=
  let lines := splitLines (file.getD [])
  let r := entries.foldl addEntryStep (lines, false)
  if r.2 then (true, some (List.intercalate eol r.1)) else (false, file)

theorem splitLines_ne_nil : ∀ s, splitLines s ≠ []
  | [] => by simp [splitLines]
  | [c] => by
    simp only [splitLines]
    split <;> simp
  | c :: c2 :: rest => by
    simp only [splitLines]
    split
    · simp
    · split
      · simp
      · split <;> simp

theorem splitLines_no_newline : ∀ s, ∀ l ∈ splitLines s, '\n' ∉ l
  | [] => by simp [splitLines]
  | [c] => by
    intro l hl
    simp only [splitLines] at hl
    by_cases hc : c = '\n'
    · rw [if_pos hc] at hl
      rcases List.mem_cons.mp hl with rfl | hl2
      · simp
      · rw [List.mem_singleton.mp hl2]
        simp
    · rw [if_neg hc] at hl
      rw [List.mem_singleton.mp hl]
      intro hmem
      exact hc (List.mem_singleton.mp hmem).symm
  | c :: c2 :: rest => by
    intro l hl
    simp only [splitLines] at hl
    by_cases hc : c = '\n'
    · rw [if_pos hc] at hl
      rcases List.mem_cons.mp hl with rfl | hl2
      · simp
      · exact splitLines_no_newline (c2 :: rest) l hl2
    · rw [if_neg hc] at hl
      by_cases hcr : c = '\r' ∧ c2 = '\n'
      · rw [if_pos hcr] at hl
        rcases List.mem_cons.mp hl with rfl | hl2
        · simp
        · exact splitLines_no_newline rest l hl2
      · rw [if_neg hcr] at hl
        rcases hsp : splitLines (c2 :: rest) with _ | ⟨p, ps⟩
        · exact absurd hsp (splitLines_ne_nil _)
        · rw [hsp] at hl
          rcases List.mem_cons.mp hl with rfl | hl2
          · intro hmem
            rcases List.mem_cons.mp hmem with h | h
            · exact hc h.symm
            · exact splitLines_no_newline (c2 :: rest) p
                (by rw [hsp]; exact List.mem_cons_self p ps) h
          · exact splitLines_no_newline (c2 :: rest) l
              (by rw [hsp]; exact List.mem_cons_of_mem p hl2)

theorem splitLines_of_no_newline :
    ∀ l : List Char, '\n' ∉ l → splitLines l = [l]
  | [], _ => rfl
  | [c], h => by
    have hc : c ≠ '\n' := fun hh => h (hh ▸ List.mem_cons_self c [])
    simp only [splitLines, if_neg hc]
  | c :: c2 :: rest, h => by
    have hc : c ≠ '\n' := fun hh => h (hh ▸ List.mem_cons_self c (c2 :: rest))
    have h2 : '\n' ∉ c2 :: rest := fun hm => h (List.mem_cons_of_mem c hm)
    have hc2 : c2 ≠ '\n' :=
      fun hh => h2 (hh ▸ List.mem_cons_self c2 rest)
    have hcr : ¬(c = '\r' ∧ c2 = '\n') := fun hh => hc2 hh.2
    simp only [splitLines, if_neg hc, if_neg hcr]
    rw [splitLines_of_no_newline (c2 :: rest) h2]

theorem splitLines_newline_cons :
    ∀ t, splitLines ('\n' :: t) = [] :: splitLines t
  | [] => by simp [splitLines]
  | c2 :: rest => by
    simp [splitLines]

/-- Splitting a text whose first line is CR-free and LF-free: the line
separates off cleanly. -/
theorem splitLines_append_LF :
    ∀ l t : List Char, '\n' ∉ l → '\r' ∉ l →
      splitLines (l ++ '\n' :: t) = l :: splitLines t
  | [], t, _, _ => splitLines_newline_cons t
  | c :: l', t, hn, hr => by
    have hc : c ≠ '\n' := fun hh => hn (hh ▸ List.mem_cons_self c l')
    have hcr : c ≠ '\r' := fun hh => hr (hh ▸ List.mem_cons_self c l')
    have hn' : '\n' ∉ l' := fun hm => hn (List.mem_cons_of_mem c hm)
    have hr' : '\r' ∉ l' := fun hm => hr (List.mem_cons_of_mem c hm)
    show splitLines (c :: (l' ++ '\n' :: t)) = (c :: l') :: splitLines t
    rcases hsh : l' ++ '\n' :: t with _ | ⟨c2, rest⟩
    · exact absurd hsh (by simp)
    · have hcond : ¬(c = '\r' ∧ c2 = '\n') := fun hh => hcr hh.1
      simp only [splitLines, if_neg hc, if_neg hcond]
      rw [← hsh, splitLines_append_LF l' t hn' hr']

/-- Splitting a text whose first line is LF-free, with a CRLF separator:
the line separates off cleanly (a trailing CR in the line is harmless
here, unlike with a bare LF separator). -/
theorem splitLines_append_CRLF :
    ∀ l t : List Char, '\n' ∉ l →
      splitLines (l ++ '\r' :: '\n' :: t) = l :: splitLines t
  | [], t, _ => by
    simp [splitLines]
  | c :: l', t, hn => by
    have hc : c ≠ '\n' := fun hh => hn (hh ▸ List.mem_cons_self c l')
    have hn' : '\n' ∉ l' := fun hm => hn (List.mem_cons_of_mem c hm)
    show splitLines (c :: (l' ++ '\r' :: '\n' :: t))
      = (c :: l') :: splitLines t
    rcases hsh : l' ++ '\r' :: '\n' :: t with _ | ⟨c2, rest⟩
    · exact absurd hsh (by simp)
    · have hc2 : c2 ≠ '\n' := by
        cases l' with
        | nil =>
          simp only [List.nil_append] at hsh
          injection hsh with h1 _
          rw [← h1]
          decide
        | cons x xs =>
          simp only [List.cons_append] at hsh
          injection hsh with h1 _
          rw [← h1]
          intro hh
          exact hn' (hh ▸ List.mem_cons_self x xs)
      have hcond : ¬(c = '\r' ∧ c2 = '\n') := fun hh => hc2 hh.2
      simp only [splitLines, if_neg hc, if_neg hcond]
      rw [← hsh, splitLines_append_CRLF l' t hn']

/-- For an arbitrary LF-free first line (possibly ending in CR), a bare
LF separator still separates off SOME first segment. -/
theorem splitLines_append_LF_ex :
    ∀ l t : List Char, '\n' ∉ l →
      ∃ hd, splitLines (l ++ '\n' :: t) = hd :: splitLines t
  | [], t, _ => ⟨[], splitLines_newline_cons t⟩
  | c :: l', t, hn => by
    have hc : c ≠ '\n' := fun hh => hn (hh ▸ List.mem_cons_self c l')
    have hn' : '\n' ∉ l' := fun hm => hn (List.mem_cons_of_mem c hm)
    rcases hsh : l' ++ '\n' :: t with _ | ⟨c2, rest⟩
    · exact absurd hsh (by simp)
    · by_cases hcond : c = '\r' ∧ c2 = '\n'
      · have hl' : l' = [] := by
          cases l' with
          | nil => rfl
          | cons x xs =>
            exfalso
            simp only [List.cons_append] at hsh
            injection hsh with h1 _
            have hx : x = '\n' := h1.trans hcond.2
            exact hn' (hx ▸ List.mem_cons_self x xs)
        subst hl'
        refine ⟨[], ?_⟩
        have hcr : c = '\r' := hcond.1
        subst hcr
        show splitLines ('\r' :: '\n' :: t) = [] :: splitLines t
        simp [splitLines]
      · obtain ⟨hd, hhd⟩ := splitLines_append_LF_ex l' t hn'
        refine ⟨c :: hd, ?_⟩
        show splitLines (c :: (l' ++ '\n' :: t)) = (c :: hd) :: splitLines t
        rw [hsh]
        simp only [splitLines, if_neg hc, if_neg hcond]
        rw [← hsh, hhd]

theorem intercalate_single (sep x : List Char) :
    List.intercalate sep [x] = x := by
  simp [List.intercalate]

theorem intercalate_cons2 (sep x y : List Char) (zs : List (List Char)) :
    List.intercalate sep (x :: y :: zs)
      = x ++ sep ++ List.intercalate sep (y :: zs) := by
  simp [List.intercalate, List.intersperse_cons_cons, List.append_assoc]

/-- An entry that is CR-free and LF-free survives `join(EOL)` followed by
`split(/\r?\n/)`, provided every line of the joined list is LF-free. -/
theorem mem_splitLines_intercalate (eol : List Char)
    (heol : eol = ['\n'] ∨ eol = ['\r', '\n']) :
    ∀ (ls : List (List Char)) (e : List Char),
      (∀ l ∈ ls, '\n' ∉ l) → e ∈ ls → '\r' ∉ e → '\n' ∉ e →
      e ∈ splitLines (List.intercalate eol ls)
  | [], e, _, he, _, _ => absurd he (by simp)
  | [l], e, hls, he, hr, hn => by
    have hel : e = l := by simpa using he
    subst hel
    rw [intercalate_single, splitLines_of_no_newline e hn]
    simp
  | l :: l2 :: ls', e, hls, he, hr, hn => by
    have hnl : '\n' ∉ l := hls l (List.mem_cons_self l (l2 :: ls'))
    have hls' : ∀ x ∈ l2 :: ls', '\n' ∉ x :=
      fun x hx => hls x (List.mem_cons_of_mem l hx)
    rw [intercalate_cons2]
    rcases List.mem_cons.mp he with rfl | he2
    · rcases heol with rfl | rfl
      · have hshape : e ++ ['\n'] ++ List.intercalate ['\n'] (l2 :: ls')
            = e ++ '\n' :: List.intercalate ['\n'] (l2 :: ls') := by
          simp [List.append_assoc]
        rw [hshape, splitLines_append_LF e _ hn hr]
        exact List.mem_cons_self e _
      · have hshape : e ++ ['\r', '\n']
              ++ List.intercalate ['\r', '\n'] (l2 :: ls')
            = e ++ '\r' :: '\n'
              :: List.intercalate ['\r', '\n'] (l2 :: ls') := by
          simp [List.append_assoc]
        rw [hshape, splitLines_append_CRLF e _ hn]
        exact List.mem_cons_self e _
    · have ih := mem_splitLines_intercalate eol heol (l2 :: ls') e hls'
        he2 hr hn
      rcases heol with rfl | rfl
      · have hshape : l ++ ['\n'] ++ List.intercalate ['\n'] (l2 :: ls')
            = l ++ '\n' :: List.intercalate ['\n'] (l2 :: ls') := by
          simp [List.append_assoc]
        obtain ⟨hd, hhd⟩ :=
          splitLines_append_LF_ex l (List.intercalate ['\n'] (l2 :: ls')) hnl
        rw [hshape, hhd]
        exact List.mem_cons_of_mem hd ih
      · have hshape : l ++ ['\r', '\n']
              ++ List.intercalate ['\r', '\n'] (l2 :: ls')
            = l ++ '\r' :: '\n'
              :: List.intercalate ['\r', '\n'] (l2 :: ls') := by
          simp [List.append_assoc]
        rw [hshape, splitLines_append_CRLF l _ hnl]
        exact List.mem_cons_of_mem l ih

theorem foldl_addEntryStep_of_mem :
    ∀ (entries : List (List Char)) (lines : List (List Char)),
      (∀ e ∈ entries, e ∈ lines) →
      entries.foldl addEntryStep (lines, false) = (lines, false)
  | [], _, _ => rfl
  | e :: es, lines, h => by
    simp only [List.foldl_cons]
    rw [show addEntryStep (lines, false) e = (lines, false) from by
      simp only [addEntryStep]
      rw [if_pos (h e (List.mem_cons_self e es))]]
    exact foldl_addEntryStep_of_mem es lines
      (fun x hx => h x (List.mem_cons_of_mem e hx))

theorem foldl_addEntryStep_mono :
    ∀ (entries : List (List Char)) (acc : List (List Char) × Bool)
      (l : List Char), l ∈ acc.1 →
      l ∈ (entries.foldl addEntryStep acc).1
  | [], _, _, h => h
  | e :: es, acc, l, h => by
    simp only [List.foldl_cons]
    apply foldl_addEntryStep_mono es
    by_cases hmem : e ∈ acc.1
    · simp only [addEntryStep, if_pos hmem]
      exact h
    · simp only [addEntryStep, if_neg hmem]
      exact List.mem_append_left _ h

theorem foldl_addEntryStep_mem :
    ∀ (entries : List (List Char)) (acc : List (List Char) × Bool)
      (e : List Char), e ∈ entries →
      e ∈ (entries.foldl addEntryStep acc).1
  | [], _, _, h => absurd h (by simp)
  | e' :: es, acc, e, h => by
    simp only [List.foldl_cons]
    rcases List.mem_cons.mp h with rfl | h2
    · apply foldl_addEntryStep_mono es
      by_cases hmem : e ∈ acc.1
      · simp only [addEntryStep, if_pos hmem]
        exact hmem
      · simp only [addEntryStep, if_neg hmem]
        exact List.mem_append_right _ (List.mem_singleton.mpr rfl)
    · exact foldl_addEntryStep_mem es _ e h2

theorem foldl_addEntryStep_subset :
    ∀ (entries : List (List Char)) (acc : List (List Char) × Bool)
      (l : List Char), l ∈ (entries.foldl addEntryStep acc).1 →
      l ∈ acc.1 ∨ l ∈ entries
  | [], _, _, h => Or.inl h
  | e :: es, acc, l, h => by
    simp only [List.foldl_cons] at h
    rcases foldl_addEntryStep_subset es _ l h with h2 | h2
    · by_cases hmem : e ∈ acc.1
      · simp only [addEntryStep, if_pos hmem] at h2
        exact Or.inl h2
      · simp only [addEntryStep, if_neg hmem] at h2
        rcases List.mem_append.mp h2 with h3 | h3
        · exact Or.inl h3
        · refine Or.inr ?_
          rw [List.mem_singleton.mp h3]
          exact List.mem_cons_self e es
    · exact Or.inr (List.mem_cons_of_mem e h2)

theorem foldl_addEntryStep_true :
    ∀ (entries : List (List Char)) (ls : List (List Char)),
      (entries.foldl addEntryStep (ls, true)).2 = true
  | [], _ => rfl
  | e :: es, ls => by
    simp only [List.foldl_cons]
    by_cases hmem : e ∈ ls
    · rw [show addEntryStep (ls, true) e = (ls, true) from by
        simp only [addEntryStep]
        rw [if_pos hmem]]
      exact foldl_addEntryStep_true es ls
    · rw [show addEntryStep (ls, true) e = (ls ++ [e], true) from by
        simp only [addEntryStep]
        rw [if_neg hmem]]
      exact foldl_addEntryStep_true es (ls ++ [e])

theorem foldl_addEntryStep_false :
    ∀ (entries : List (List Char)) (acc : List (List Char) × Bool),
      (entries.foldl addEntryStep acc).2 = false →
      (entries.foldl addEntryStep acc).1 = acc.1 ∧ ∀ e ∈ entries, e ∈ acc.1
  | [], _, _ => ⟨rfl, by simp⟩
  | e :: es, acc, h => by
    simp only [List.foldl_cons] at h ⊢
    by_cases hmem : e ∈ acc.1
    · have hstep : addEntryStep acc e = acc := by
        simp only [addEntryStep]
        rw [if_pos hmem]
      rw [hstep] at h ⊢
      obtain ⟨h1, h2⟩ := foldl_addEntryStep_false es acc h
      refine ⟨h1, fun x hx => ?_⟩
      rcases List.mem_cons.mp hx with rfl | hx2
      · exact hmem
      · exact h2 x hx2
    · exfalso
      have hstep : addEntryStep acc e = (acc.1 ++ [e], true) := by
        simp only [addEntryStep]
        rw [if_neg hmem]
      rw [hstep, foldl_addEntryStep_true es (acc.1 ++ [e])] at h
      exact Bool.noConfusion h

/-- C9 counterexample: with the single entry `"a\nb"` (which contains a
newline) starting from a missing file, the first call writes `"\na\nb"`;
re-splitting that yields the lines `""`, `"a"`, `"b"`, so the second call
does not find the entry, returns `true` again and rewrites the file —
`addToGitignore` is not idempotent as claimed. -/
theorem addToGitignore_counterexample :
    (addToGitignore [['a', '\n', 'b']] ['\n']
      ((addToGitignore [['a', '\n', 'b']] ['\n'] none).2)).1 = true ∧
    (addToGitignore [['a', '\n', 'b']] ['\n']
      ((addToGitignore [['a', '\n', 'b']] ['\n'] none).2)).2
      ≠ (addToGitignore [['a', '\n', 'b']] ['\n'] none).2 := by
  refine ⟨by decide, by decide⟩

/-- C9 (amended): (1) if every entry already occurs as a line of the
file, `addToGitignore` returns `false` and leaves the file unchanged, and
(2) provided no entry contains a carriage return or newline (so each
entry survives the `join(EOL)` / `split(/\r?\n/)` round trip; the
counterexample shows some restriction is necessary), a second call
immediately after a first call returns `false` and changes nothing.
`eol` ranges over the two values `os.EOL` takes. -/
theorem addToGitignore_idempotent (entries : List (List Char))
    (eol : List Char) (file : Option (List Char))
    (heol : eol = ['\n'] ∨ eol = ['\r', '\n']) :
    ((∀ e ∈ entries, e ∈ splitLines (file.getD [])) →
      addToGitignore entries eol file = (false, file)) ∧
    ((∀ e ∈ entries, '\r' ∉ e ∧ '\n' ∉ e) →
      addToGitignore entries eol ((addToGitignore entries eol file).2)
        = (false, (addToGitignore entries eol file).2)) := by
  constructor
  · intro h
    simp only [addToGitignore]
    rw [foldl_addEntryStep_of_mem entries _ h]
    simp
  · intro hfree
    by_cases hmod :
        (entries.foldl addEntryStep (splitLines (file.getD []), false)).2
          = true
    · have hfile2 : (addToGitignore entries eol file).2
          = some (List.intercalate eol
              (entries.foldl addEntryStep
                (splitLines (file.getD []), false)).1) := by
        simp only [addToGitignore]
        rw [if_pos hmod]
      set ls₂ := (entries.foldl addEntryStep
        (splitLines (file.getD []), false)).1 with hlsdef
      have hnl : ∀ l ∈ ls₂, '\n' ∉ l := by
        intro l hl
        rcases foldl_addEntryStep_subset entries _ l hl with h2 | h2
        · exact splitLines_no_newline _ l h2
        · exact (hfree l h2).2
      have hmemall : ∀ e ∈ entries,
          e ∈ splitLines (List.intercalate eol ls₂) := by
        intro e he
        exact mem_splitLines_intercalate eol heol ls₂ e hnl
          (foldl_addEntryStep_mem entries _ e he)
          (hfree e he).1 (hfree e he).2
      rw [hfile2]
      simp only [addToGitignore, Option.getD_some]
      rw [foldl_addEntryStep_of_mem entries _ hmemall]
      simp
    · rw [Bool.not_eq_true] at hmod
      have hfirst : addToGitignore entries eol file = (false, file) := by
        simp only [addToGitignore]
        rw [if_neg (by rw [hmod]; simp)]
      rw [hfirst]
      exact hfirst

/-- Witness for the amended C9 at a concrete entry list and missing
file, with LF line endings. -/
theorem addToGitignore_idempotent_witness :
    addToGitignore [['k']] ['\n'] ((addToGitignore [['k']] ['\n'] none).2)
      = (false, (addToGitignore [['k']] ['\n'] none).2) :=
  (addToGitignore_idempotent [['k']] ['\n'] none (Or.inl rfl)).2 (by decide)

/-! ## `src/core/env.ts` -/

/-- The caller-supplied options object of `createEnv`; `none` models an
absent field, which the `{...defaultOptions, ...options}` merge replaces
by the default (`".env"`, `true`, `true`, `false`). -/
structure EnvOptions where
  envFilePath : Option (List Char) := none
  logValidationErrors : Option Bool := none
  throwOnValidationFailure : Option Bool := none
  skipEnvLoad : Option Bool := none

/-- `process.env` as a string map. -/
def EnvMap : Type := List Char → Option (List Char)

inductive EnvError where
  | validationFailed
deriving DecidableEq, Repr

/-- `createEnv(schema, options)` from `env.ts` lines 54-89.  External
collaborators are explicit parameters: `parse` models
`schema.safeParse` (`some` = success with the typed data, `none` =
failure), `emptyObj` the `{} as z.infer<T>` value the code returns on a
non-throwing failure, `fileExists` models `existsSync`, and `dotenvLoad`
the effect of `dotenv.config` on `process.env`. -/
def createEnv {T : Type} (parse : EnvMap → Option T) (emptyObj : T)
    (opts : EnvOptions) (fileExists : List Char → Bool)
    (dotenvLoad : EnvMap → EnvMap) (processEnv : EnvMap) :
    Except EnvError T :=
  let envFilePath := opts.envFilePath.getD ".env".toList
  let throwOn := opts.throwOnValidationFailure.getD true
  let skipLoad := opts.skipEnvLoad.getD false
  let env :=
    if !skipLoad && !envFilePath.isEmpty && fileExists envFilePath then
      dotenvLoad processEnv
    else processEnv
  match parse env with
  | some data => .ok data
  | none => if throwOn then .error .validationFailed else .ok emptyObj

/-- C10: with `throwOnValidationFailure` set to `false`, a failed schema
validation makes `createEnv` return the designated empty object — it
neither throws nor returns any partially validated data. -/
theorem createEnv_failure_returns_empty {T : Type}
    (parse : EnvMap → Option T) (emptyObj : T) (opts : EnvOptions)
    (fileExists : List Char → Bool) (dotenvLoad : EnvMap → EnvMap)
    (processEnv : EnvMap)
    (hthrow : opts.throwOnValidationFailure = some false)
    (hfail : parse
      (if !(opts.skipEnvLoad.getD false)
          && !(opts.envFilePath.getD ".env".toList).isEmpty
          && fileExists (opts.envFilePath.getD ".env".toList)
        then dotenvLoad processEnv else processEnv) = none) :
    createEnv parse emptyObj opts fileExists dotenvLoad processEnv
      = .ok emptyObj := by
  simp only [createEnv]
  rw [hfail, hthrow]
  simp

/-- Witness for C10 at a concrete failing schema and options object. -/
theorem createEnv_failure_returns_empty_witness :
    createEnv (fun _ => (none : Option Bool)) true
      ⟨none, none, some false, none⟩ (fun _ => false) id (fun _ => none)
      = .ok true :=
  createEnv_failure_returns_empty (fun _ => (none : Option Bool)) true
    ⟨none, none, some false, none⟩ (fun _ => false) id (fun _ => none)
    rfl rfl

end SuperEnv
